import Mathlib

/-!
Shallow embedding of the subtitle segmentation engine of
`src/segmentation/segment.py` (whisper-timestamped / subwisp).

Modelling conventions:
* A spaCy `Token` is the structure `STok`: `idx` is the token's character
  offset in the document text (`token.idx`), `text` its literal, `isPunct`
  the punctuation flag, `pos`/`dep` the part-of-speech and dependency
  labels, and `canFragmentAfter`/`fragmentReason` the two custom
  extension attributes `can_fragment_after` / `fragment_reason`.
* A document is a `List STok`; a token's position in that list is its
  `token.i`.  A span/sentence is a contiguous sub-list; `divide_span`
  works on the sentence's token list and returns half-open index ranges
  `(a, b)` standing for the Python slice `span[a:b]`.
* The timing dictionary is an association list `List (Nat × ℚ × ℚ)` from
  character offset to `(start, end)` times; Python float times are
  modelled as rationals (the arithmetic of the engine is plain `+`, `-`,
  comparisons and the literals `0.001`, `0.5`, `1.5`, exact in `ℚ`).
* `len(span.text)` for a slice of the document text is the character
  distance from the first token's offset to the end of the last token,
  clamped at zero, which `spanTextLen` computes from the token offsets.
-/

namespace Subwisp

structure STok where
  idx : Nat
  text : String
  isPunct : Bool
  pos : String
  dep : String
  canFragmentAfter : Bool
  fragmentReason : String
deriving DecidableEq, Repr, Inhabited

/-- The strong-punctuation literals of `divide_span`
(`token.text in [",", ".", ":", ";"]`). -/
def strong_punct : List String := [",", ".", ":", ";"]

/-- Length of `span[a:b].text` in characters: distance from the first
token's character offset to the last token's end offset (0 when empty). -/
def spanTextLen (toks : List STok) : Nat :=
  match toks.head?, toks.getLast? with
  | some f, some l => l.idx + l.text.length - f.idx
  | _, _ => 0

/-- The Python slice `span[a:b]`. -/
def spanSlice (span : List STok) (a b : Nat) : List STok :=
  (span.drop a).take (b - a)

/-- The break-point score of `divide_span` (segment.py lines 144-161):
base 10, plus 5 for a strong punctuation literal, else 3 for reason
"punctuation", else 2 for "conjunction"/"clause" when not in
punctuation-only mode, plus twice the balance bonus. -/
def break_score (po : Bool) (t : STok) (curlen : Nat) (mw : Int) : ℚ :=
  let bonus : ℚ :=
    if t.text ∈ strong_punct then 5
    else if t.fragmentReason = "punctuation" then 3
    else if po = false ∧ (t.fragmentReason = "conjunction" ∨ t.fragmentReason = "clause") then 2
    else 0
  let half : ℚ := (mw : ℚ) / 2
  let balance : ℚ := 1 - |(curlen : ℚ) - half| / half
  10 + bonus + balance * 2

/-- Is the token treated as punctuation by the chunker's skip test
(segment.py line 145)? -/
def is_punct_like (t : STok) : Prop :=
  t.text ∈ strong_punct ∨ t.fragmentReason = "punctuation"

instance (t : STok) : Decidable (is_punct_like t) := by
  unfold is_punct_like; infer_instance

/-- The scoring step of `divide_span` for one token (segment.py lines
143-165): `none` models the `continue` of line 148; otherwise the updated
`(last_good_break, last_break_score)` pair is returned, together with the
singleton list of the index recorded into `last_good_break` (if any). -/
def scoring_upd (mw : Int) (po : Bool) (token : STok) (i curlen : Nat)
    (lgb : Option Nat) (lbs : ℚ) : Option (Option Nat × ℚ × List Nat) :=
  if token.canFragmentAfter then
    if po = true ∧ ¬ is_punct_like token then
      none  -- the `continue` of line 148
    else if mw.fdiv 3 ≤ (curlen : Int) ∧ (curlen : Int) ≤ mw then
      let score := break_score po token curlen mw
      if lbs < score then some (some i, score, [i]) else some (lgb, lbs, [])
    else some (lgb, lbs, [])
  else some (lgb, lbs, [])

/-- The scan loop of `divide_span` (segment.py lines 139-186), translated
one-to-one.  `span` is the whole sentence; the first list argument is the
not-yet-scanned suffix of `span`, `i` the index of its head, `ccs` the
`current_chunk_start`, `lgb` the `last_good_break`, `lbs` the
`last_break_score`.  Besides the emitted chunk ranges (first component)
the function also returns, as its second component, the indices that were
recorded into `last_good_break` (the accepted break candidates), used to
state the punctuation-only filter property. -/
def divide_go (span : List STok) (mw : Int) (po : Bool) :
    List STok → Nat → Nat → Option Nat → ℚ → List (Nat × Nat) × List Nat
  | [], _, ccs, _, _ =>
    (if ccs < span.length then [(ccs, span.length)] else [], [])
  | token :: rest, i, ccs, lgb, lbs =>
    let curlen := spanTextLen (spanSlice span ccs (i+1))
    match scoring_upd mw po token i curlen lgb lbs with
    | none => divide_go span mw po rest (i+1) ccs lgb lbs
    | some (lgb2, lbs2, recs) =>
      if mw < (curlen : Int) ∧ lgb2.isSome = true then
        let b := lgb2.getD 0
        let r := divide_go span mw po rest (i+1) (b+1) none 0
        ((ccs, b+1) :: r.1, recs ++ r.2)
      else if (mw : ℚ) * (3/2) < (curlen : ℚ) then
        if ccs < i then
          let r := divide_go span mw po rest (i+1) i none 0
          ((ccs, i) :: r.1, recs ++ r.2)
        else
          let r := divide_go span mw po rest (i+1) (ccs+1) none 0
          ((ccs, ccs+1) :: r.1, recs ++ r.2)
      else
        let r := divide_go span mw po rest (i+1) ccs lgb2 lbs2
        (r.1, recs ++ r.2)

/-- `divide_span(span, args)` (segment.py lines 125-186): the chunk
ranges it yields, as half-open index ranges into `span`. -/
def divide_span (span : List STok) (mw : Int) (po : Bool) : List (Nat × Nat) :=
  if (spanTextLen span : Int) ≤ mw then [(0, span.length)]
  else (divide_go span mw po span 0 0 none 0).1

/-- The indices recorded into `last_good_break` during a run of
`divide_span` (empty on the short-span fast path, which never scores). -/
def divide_recorded (span : List STok) (mw : Int) (po : Bool) : List Nat :=
  if (spanTextLen span : Int) ≤ mw then []
  else (divide_go span mw po span 0 0 none 0).2

/-- Modelled from the spec's words (§4.2 / claim C7): the same scan loop,
but with the punctuation-only filter skipping ONLY the scoring step, so
that the forced-break logic is evaluated after every scanned token.  To
be compared with `divide_go`, whose `continue` also skips the
forced-break logic. -/
def divide_go_spec (span : List STok) (mw : Int) (po : Bool) :
    List STok → Nat → Nat → Option Nat → ℚ → List (Nat × Nat)
  | [], _, ccs, _, _ =>
    if ccs < span.length then [(ccs, span.length)] else []
  | token :: rest, i, ccs, lgb, lbs =>
    let curlen := spanTextLen (spanSlice span ccs (i+1))
    let upd : Option Nat × ℚ :=
      if token.canFragmentAfter ∧ ¬ (po = true ∧ ¬ is_punct_like token) ∧
          mw.fdiv 3 ≤ (curlen : Int) ∧ (curlen : Int) ≤ mw then
        let score := break_score po token curlen mw
        if lbs < score then (some i, score) else (lgb, lbs)
      else (lgb, lbs)
    if mw < (curlen : Int) ∧ upd.1.isSome = true then
      let b := upd.1.getD 0
      (ccs, b+1) :: divide_go_spec span mw po rest (i+1) (b+1) none 0
    else if (mw : ℚ) * (3/2) < (curlen : ℚ) then
      if ccs < i then
        (ccs, i) :: divide_go_spec span mw po rest (i+1) i none 0
      else
        (ccs, ccs+1) :: divide_go_spec span mw po rest (i+1) (ccs+1) none 0
    else
      divide_go_spec span mw po rest (i+1) ccs upd.1 upd.2

/-- Modelled from the spec's words: `divide_span` with the spec-side scan
loop `divide_go_spec`. -/
def divide_span_spec (span : List STok) (mw : Int) (po : Bool) : List (Nat × Nat) :=
  if (spanTextLen span : Int) ≤ mw then [(0, span.length)]
  else divide_go_spec span mw po span 0 0 none 0

/-!  ## Timing table and timing resolver  -/

/-- `timing.get(k, None)` on the timing dictionary, modelled as an
association list from character offset to `(start, end)` times. -/
def timing_get (timing : List (Nat × ℚ × ℚ)) (k : Nat) : Option (ℚ × ℚ) :=
  (timing.find? (fun p => p.1 == k)).map (·.2)

/-- The condition of the two `while` loops of `get_time_span`
(segment.py lines 25-28): the token at document position `j` is
punctuation or has no entry in the timing table. -/
def time_cond (doc : List STok) (timing : List (Nat × ℚ × ℚ)) (j : Nat) : Bool :=
  (doc.getD j default).isPunct || (timing_get timing (doc.getD j default).idx).isNone

/-- The backward walk of `get_time_span`: starting at document position
`j`, step to the previous token while `time_cond` holds, stopping at
position 0 (`token.i > 0` fails) otherwise. -/
def walk_back (doc : List STok) (timing : List (Nat × ℚ × ℚ)) : Nat → Nat
  | 0 => 0
  | j+1 => if time_cond doc timing (j+1) then walk_back doc timing j else j+1

/-- `get_time_span(span, timing)` (segment.py lines 18-43) for the chunk
occupying document positions `[a, b)`; the Python `(None, None)` returns
become `none`. -/
def get_time_span (doc : List STok) (timing : List (Nat × ℚ × ℚ)) (a b : Nat) :
    Option (ℚ × ℚ) :=
  if b ≤ a then none
  else
    let st := walk_back doc timing a
    let en := walk_back doc timing (b-1)
    match timing_get timing (doc.getD st default).idx,
          timing_get timing (doc.getD en default).idx with
    | some p, some q => some (p.1, q.2)
    | _, _ => none

/-!  ## Fragmenter (break candidate scorer) and pause detector  -/

/-- Set the two extension attributes of a token to mark a break
opportunity with the given reason. -/
def mark (t : STok) (reason : String) : STok :=
  { t with canFragmentAfter := true, fragmentReason := reason }

/-- The single-token matcher patterns of `FragmenterComponent.fragmenter`
(segment.py lines 61-63), evaluated at token `t` of document position
`i`: each pattern that matches contributes one `(rule, position)` match. -/
def token_matches (t : STok) (i : Nat) : List (String × Nat) :=
  (if t.isPunct = true ∧ t.text ∈ (["," , ":", ";"] : List String)
   then [("punct", i)] else []) ++
  (if t.pos = "CCONJ" ∨ t.pos = "SCONJ" then [("conj", i)] else []) ++
  (if t.dep ∈ (["advcl", "relcl", "acl", "acl:relcl"] : List String)
   then [("clause", i)] else [])

/-- All matcher matches over the document, in token order (the matcher is
modelled as producing its single-token matches in document order). -/
def matches_go : List STok → Nat → List (String × Nat)
  | [], _ => []
  | t :: ts, i => token_matches t i ++ matches_go ts (i+1)

/-- Application of one match (segment.py lines 73-87): "punct" marks the
matched token itself, "conj" and "clause" mark the preceding token when
there is one. -/
def apply_match (doc : List STok) (m : String × Nat) : List STok :=
  if m.1 = "punct" then doc.set m.2 (mark (doc.getD m.2 default) "punctuation")
  else if m.1 = "conj" then
    (if 0 < m.2 then doc.set (m.2 - 1) (mark (doc.getD (m.2 - 1) default) "conjunction")
     else doc)
  else
    (if 0 < m.2 then doc.set (m.2 - 1) (mark (doc.getD (m.2 - 1) default) "clause")
     else doc)

/-- The verbal-pause pass (segment.py lines 90-93): every token whose
document position is in `pauses` is marked, unconditionally. -/
def apply_pauses : List STok → List Nat → Nat → List STok
  | [], _, _ => []
  | t :: ts, ps, i =>
    (if i ∈ ps then mark t "verbal pause" else t) :: apply_pauses ts ps (i+1)

/-- `FragmenterComponent.fragmenter` (segment.py lines 57-95): the
matcher pass followed by the verbal-pause pass. -/
def fragmenter (doc : List STok) (pauses : List Nat) : List STok :=
  apply_pauses ((matches_go doc 0).foldl apply_match doc) pauses 0

/-- Insertion into a list of timing entries sorted by character offset. -/
def insert_by_key (x : Nat × ℚ × ℚ) : List (Nat × ℚ × ℚ) → List (Nat × ℚ × ℚ)
  | [] => [x]
  | y :: ys => if x.1 ≤ y.1 then x :: y :: ys else y :: insert_by_key x ys

/-- `sorted(timing.items())`: the timing entries sorted by character
offset (offsets are unique keys of a dictionary). -/
def sort_by_key (l : List (Nat × ℚ × ℚ)) : List (Nat × ℚ × ℚ) :=
  l.foldr insert_by_key []

/-- The adjacent-pair scan of `scan_for_pauses` (segment.py lines
118-122): for each adjacent pair of sorted entries with
`next.start - prev.end > 0.5`, emit the earlier entry's key. -/
def pause_scan : List (Nat × ℚ × ℚ) → List Nat
  | x :: y :: rest =>
    (if (1/2 : ℚ) < y.2.1 - x.2.2 then [x.1] else []) ++ pause_scan (y :: rest)
  | _ => []

/-- `scan_for_pauses(doc_text, timing)` (segment.py lines 115-123); the
`doc_text` argument is unused by the source. -/
def scan_for_pauses (timing : List (Nat × ℚ × ℚ)) : List Nat :=
  pause_scan (sort_by_key timing)

/-!  ## Document iteration and sequence repair

A cue is `(start_sec, end_sec, document token range of the chunk)`; the
subtitle text of the Python generator is represented by the chunk's
half-open document token range `(gs, ge)` (the text is the document text
slice determined by that range, which no property here inspects). -/

/-- A final cue: start time, end time, document token range. -/
abbrev Cue := ℚ × ℚ × Nat × Nat

/-- The inner loop of `iterate_document` (segment.py lines 193-211) over
the chunk ranges of one sentence: `off` is the document position of the
sentence's first token, `le` the running `last_end`.  Empty chunks,
chunks with empty text and chunks without timing are skipped; emitted
cues are overlap-repaired in place and `last_end` is threaded through.
Returns the emitted cues and the final `last_end`. -/
def emit_cues (doc : List STok) (timing : List (Nat × ℚ × ℚ)) :
    List (Nat × Nat) → Nat → ℚ → List Cue × ℚ
  | [], _, le => ([], le)
  | (a, b) :: cs, off, le =>
    if b - a = 0 then emit_cues doc timing cs off le  -- `if not chunk`
    else if spanTextLen (spanSlice doc (off + a) (off + b)) = 0 then
      emit_cues doc timing cs off le                  -- `if not subtitle`
    else
      match get_time_span doc timing (off + a) (off + b) with
      | none => emit_cues doc timing cs off le        -- missing timing
      | some (s0, e0) =>
        let s1 := if s0 < le then le + 1/1000 else s0
        let e1 := if e0 ≤ s1 then s1 + 1/1000 else e0
        let r := emit_cues doc timing cs off e1
        ((s1, e1, off + a, off + b) :: r.1, r.2)

/-- The sentence loop of `iterate_document`: fold over the sentences,
advancing the document token offset and threading `last_end`. -/
def iterate_document_go (doc : List STok) (timing : List (Nat × ℚ × ℚ))
    (mw : Int) (po : Bool) : List (List STok) → Nat → ℚ → List Cue
  | [], _, _ => []
  | s :: ss, off, le =>
    let r := emit_cues doc timing (divide_span s mw po) off le
    r.1 ++ iterate_document_go doc timing mw po ss (off + s.length) r.2

/-- `iterate_document(doc, timing, args)` (segment.py lines 188-211): the
document is given as its list of sentences; `last_end` starts at 0. -/
def iterate_document (sents : List (List STok)) (timing : List (Nat × ℚ × ℚ))
    (mw : Int) (po : Bool) : List Cue :=
  iterate_document_go sents.flatten timing mw po sents 0 0

/-- The resolution part of `emit_cues` without the repair step: the raw
resolved cues of one sentence's chunks (same skipping rules). -/
def raw_cues_emit (doc : List STok) (timing : List (Nat × ℚ × ℚ)) :
    List (Nat × Nat) → Nat → List Cue
  | [], _ => []
  | (a, b) :: cs, off =>
    if b - a = 0 then raw_cues_emit doc timing cs off
    else if spanTextLen (spanSlice doc (off + a) (off + b)) = 0 then
      raw_cues_emit doc timing cs off
    else
      match get_time_span doc timing (off + a) (off + b) with
      | none => raw_cues_emit doc timing cs off
      | some (s0, e0) => (s0, e0, off + a, off + b) :: raw_cues_emit doc timing cs off

/-- The whole document's resolved (un-repaired) cues, in order. -/
def raw_cues (doc : List STok) (timing : List (Nat × ℚ × ℚ))
    (mw : Int) (po : Bool) : List (List STok) → Nat → List Cue
  | [], _ => []
  | s :: ss, off =>
    raw_cues_emit doc timing (divide_span s mw po) off ++
      raw_cues doc timing mw po ss (off + s.length)

/-- Modelled from the spec's words (§4.4 / claim C8): the repair pass as
a standalone left-to-right scan over the resolved cues with accumulator
`last_end`: a cue starting before `last_end` is pushed to
`last_end + 0.001`; a cue then not ending after its start is given end
`start + 0.001`; `last_end` becomes the cue's end. -/
def repair_pass (le : ℚ) : List Cue → List Cue
  | [] => []
  | (s, e, r) :: cs =>
    let s1 := if s < le then le + 1/1000 else s
    let e1 := if e ≤ s1 then s1 + 1/1000 else e
    (s1, e1, r) :: repair_pass e1 cs

/-!  ## Properties of the chunker  -/

/-- The token indices covered by a list of half-open chunk ranges, in
emission order. -/
def chunk_ranges (l : List (Nat × Nat)) : List Nat :=
  l.flatMap (fun p => List.range' p.1 (p.2 - p.1))

@[simp] lemma chunk_ranges_nil : chunk_ranges [] = [] := rfl

@[simp] lemma chunk_ranges_cons (p : Nat × Nat) (l : List (Nat × Nat)) :
    chunk_ranges (p :: l) = List.range' p.1 (p.2 - p.1) ++ chunk_ranges l := rfl

lemma scoring_upd_cases (mw : Int) (po : Bool) (token : STok) (i curlen : Nat)
    (lgb : Option Nat) (lbs : ℚ) :
    scoring_upd mw po token i curlen lgb lbs = none ∨
    ∃ lgb2 lbs2 recs, scoring_upd mw po token i curlen lgb lbs = some (lgb2, lbs2, recs) ∧
      ∀ b, lgb2 = some b → lgb = some b ∨ b = i := by
  unfold scoring_upd
  dsimp only
  split_ifs <;> simp_all

lemma scoring_upd_recorded (mw : Int) (po : Bool) (token : STok) (i curlen : Nat)
    (lgb : Option Nat) (lbs : ℚ) (l2 : Option Nat) (s2 : ℚ) (r2 : List Nat)
    (h : scoring_upd mw po token i curlen lgb lbs = some (l2, s2, r2)) :
    ∀ b ∈ r2, b = i ∧ token.canFragmentAfter = true ∧
      ¬ (po = true ∧ ¬ is_punct_like token) := by
  unfold scoring_upd at h
  dsimp only at h
  split_ifs at h <;>
    simp only [Option.some.injEq, Prod.mk.injEq] at h <;>
    obtain ⟨-, -, hr⟩ := h <;> subst hr <;> simp_all

/-- The loop invariant of `divide_go`: starting a scan at position `i`
with chunk start `ccs ≤ i` and any recorded candidate in `[ccs, i)`, the
emitted chunk ranges cover exactly the positions `[ccs, span.length)` in
order, and every emitted chunk is non-empty. -/
lemma divide_go_main (span : List STok) (mw : Int) (po : Bool) (rest : List STok) :
    ∀ (i ccs : Nat) (lgb : Option Nat) (lbs : ℚ),
      i + rest.length = span.length → ccs ≤ i →
      (∀ b, lgb = some b → ccs ≤ b ∧ b < i) →
      chunk_ranges (divide_go span mw po rest i ccs lgb lbs).1 =
        List.range' ccs (span.length - ccs) ∧
      ∀ p ∈ (divide_go span mw po rest i ccs lgb lbs).1, p.1 < p.2 := by
  induction rest with
  | nil =>
    intro i ccs lgb lbs hlen hccs _
    have hi : i = span.length := by simpa using hlen
    subst hi
    simp only [divide_go]
    by_cases h : ccs < span.length
    · rw [if_pos h]
      refine ⟨by simp, ?_⟩
      intro p hp
      simp only [List.mem_singleton] at hp
      subst hp
      exact h
    · have hc : ccs = span.length := le_antisymm hccs (Nat.not_lt.mp h)
      rw [if_neg h]
      subst hc
      simp
  | cons token rest' ih =>
    intro i ccs lgb lbs hlen hccs hlgb
    have hilt : i < span.length := by
      simp only [List.length_cons] at hlen; omega
    have hlen' : (i+1) + rest'.length = span.length := by
      simp only [List.length_cons] at hlen; omega
    simp only [divide_go]
    rcases scoring_upd_cases mw po token i
        (spanTextLen (spanSlice span ccs (i+1))) lgb lbs with h | ⟨lgb2, lbs2, recs, h, hb2⟩ <;>
      rw [h]
    -- `continue`: state unchanged
    · exact ih (i+1) ccs lgb lbs hlen' (Nat.le_succ_of_le hccs)
        (fun b hb => ⟨(hlgb b hb).1, Nat.lt_succ_of_lt (hlgb b hb).2⟩)
    -- scored: the candidate state is `lgb2`, any candidate lies in `[ccs, i]`
    have hlgb2 : ∀ b, lgb2 = some b → ccs ≤ b ∧ b ≤ i := by
      intro b hb
      rcases hb2 b hb with hb' | hb'
      · exact ⟨(hlgb b hb').1, Nat.le_of_lt (hlgb b hb').2⟩
      · subst hb'; exact ⟨hccs, le_rfl⟩
    simp only []
    split_ifs with h1 h2 h3
    -- break at the recorded candidate
    · obtain ⟨b0, hb0⟩ := Option.isSome_iff_exists.mp h1.2
      have hbounds := hlgb2 b0 hb0
      have hgetD : lgb2.getD 0 = b0 := by rw [hb0]; rfl
      rw [hgetD]
      obtain ⟨ihr, ihne⟩ := ih (i+1) (b0+1) none 0 hlen'
        (by omega) (by simp)
      constructor
      · rw [chunk_ranges_cons, ihr]
        have e1 : ccs + (b0 + 1 - ccs) = b0 + 1 := by omega
        have := List.range'_append_1 ccs (b0 + 1 - ccs) (span.length - (b0+1))
        rw [e1] at this
        rw [this]
        congr 1
        omega
      · intro p hp
        rcases List.mem_cons.mp hp with hp | hp
        · subst hp; simpa using Nat.lt_succ_of_le hbounds.1
        · exact ihne p hp
    -- forced break, non-empty prefix
    · obtain ⟨ihr, ihne⟩ := ih (i+1) i none 0 hlen' (by omega) (by simp)
      constructor
      · rw [chunk_ranges_cons, ihr]
        have e1 : ccs + (i - ccs) = i := by omega
        have := List.range'_append_1 ccs (i - ccs) (span.length - i)
        rw [e1] at this
        rw [this]
        congr 1
        omega
      · intro p hp
        rcases List.mem_cons.mp hp with hp | hp
        · subst hp; exact h3
        · exact ihne p hp
    -- forced break, single-token chunk
    · obtain ⟨ihr, ihne⟩ := ih (i+1) (ccs+1) none 0 hlen' (by omega) (by simp)
      constructor
      · rw [chunk_ranges_cons, ihr]
        have e1 : ccs + (ccs + 1 - ccs) = ccs + 1 := by omega
        have := List.range'_append_1 ccs (ccs + 1 - ccs) (span.length - (ccs+1))
        rw [e1] at this
        rw [this]
        congr 1
        omega
      · intro p hp
        rcases List.mem_cons.mp hp with hp | hp
        · subst hp; exact Nat.lt_succ_self ccs
        · exact ihne p hp
    -- no break at this token
    · exact ih (i+1) ccs lgb2 lbs2 hlen' (Nat.le_succ_of_le hccs)
        (fun b hb => ⟨(hlgb2 b hb).1, Nat.lt_succ_of_le (hlgb2 b hb).2⟩)

/-- Every recorded break candidate of `divide_go` is an index of a token
of `span` that has `can_fragment_after` set and, in punctuation-only
mode, passed the punctuation test of line 145. -/
lemma divide_go_recorded (span : List STok) (mw : Int) (po : Bool) (rest : List STok) :
    ∀ (i ccs : Nat) (lgb : Option Nat) (lbs : ℚ),
      (∀ k, rest[k]? = span[i + k]?) →
      ∀ b ∈ (divide_go span mw po rest i ccs lgb lbs).2,
        ∃ t, span[b]? = some t ∧ t.canFragmentAfter = true ∧
          ¬ (po = true ∧ ¬ is_punct_like t) := by
  induction rest with
  | nil => intro i ccs lgb lbs _ b hb; simp [divide_go] at hb
  | cons token rest' ih =>
    intro i ccs lgb lbs hrest b hb
    have htok : span[i]? = some token := by
      have := hrest 0
      simpa using this.symm
    have hrest' : ∀ k, rest'[k]? = span[(i+1) + k]? := by
      intro k
      have := hrest (k+1)
      simpa [Nat.add_comm, Nat.add_assoc, Nat.add_left_comm] using this
    simp only [divide_go] at hb
    rcases hupd : scoring_upd mw po token i
        (spanTextLen (spanSlice span ccs (i+1))) lgb lbs with - | ⟨lgb2, lbs2, recs⟩ <;>
      rw [hupd] at hb
    · exact ih (i+1) ccs lgb lbs hrest' b hb
    have hrec : ∀ b ∈ recs, b = i ∧ token.canFragmentAfter = true ∧
        ¬ (po = true ∧ ¬ is_punct_like token) :=
      scoring_upd_recorded mw po token i _ lgb lbs lgb2 lbs2 recs hupd
    have hstep : ∀ (st : Nat) (lgbn : Option Nat) (lbsn : ℚ),
        b ∈ recs ++ (divide_go span mw po rest' (i+1) st lgbn lbsn).2 →
        ∃ t, span[b]? = some t ∧ t.canFragmentAfter = true ∧
          ¬ (po = true ∧ ¬ is_punct_like t) := by
      intro st lgbn lbsn hmem
      rcases List.mem_append.mp hmem with hmem | hmem
      · obtain ⟨rfl, hcf, hpo⟩ := hrec b hmem
        exact ⟨token, htok, hcf, hpo⟩
      · exact ih (i+1) st lgbn lbsn hrest' b hmem
    dsimp only at hb
    split_ifs at hb with h1 h2 h3
    · exact hstep _ _ _ hb
    · exact hstep _ _ _ hb
    · exact hstep _ _ _ hb
    · exact hstep _ _ _ hb

/-- With `punctuation_only` unset, the `continue` of line 148 is
unreachable, and the spec-side loop (forced-break logic after every
token) coincides with the source loop. -/
lemma divide_go_spec_eq (span : List STok) (mw : Int) (rest : List STok) :
    ∀ (i ccs : Nat) (lgb : Option Nat) (lbs : ℚ),
      divide_go_spec span mw false rest i ccs lgb lbs =
        (divide_go span mw false rest i ccs lgb lbs).1 := by
  induction rest with
  | nil => intro i ccs lgb lbs; simp [divide_go_spec, divide_go]
  | cons token rest' ih =>
    intro i ccs lgb lbs
    by_cases hcf : token.canFragmentAfter = true <;>
      by_cases hw : mw.fdiv 3 ≤ ((spanTextLen (spanSlice span ccs (i+1))) : Int) ∧
        ((spanTextLen (spanSlice span ccs (i+1))) : Int) ≤ mw <;>
      by_cases hsc : lbs < break_score false token (spanTextLen (spanSlice span ccs (i+1))) mw <;>
      simp only [divide_go_spec, divide_go, scoring_upd, hcf, hw, hsc, ih,
        Bool.false_eq_true, false_and, not_false_iff, true_and, and_true, and_false,
        if_true, if_false, ite_true, ite_false, not_true, not_false_eq_true,
        Bool.true_eq_false, false_iff, iff_false] <;>
      split_ifs <;> simp_all [ih]

/-!  ## Concrete example inputs used by witnesses and counterexamples

String literal lengths, supplied to `simp`/`norm_num` when evaluating the
engine on concrete inputs (simp does not reduce `String.length`). -/

lemma str_len1 : ("," : String).length = 1 ∧ ("i" : String).length = 1 := by constructor <;> rfl

lemma str_len2 : ("aa" : String).length = 2 ∧ ("bb" : String).length = 2 ∧
    ("ab" : String).length = 2 ∧ ("cd" : String).length = 2 ∧
    ("ef" : String).length = 2 := by
  refine ⟨?_, ?_, ?_, ?_, ?_⟩ <;> rfl

lemma str_len3 : ("abc" : String).length = 3 := rfl

lemma str_len4 : ("abcd" : String).length = 4 ∧ ("aaaa" : String).length = 4 ∧
    ("bbbb" : String).length = 4 ∧ ("cccc" : String).length = 4 ∧
    ("dddd" : String).length = 4 ∧ ("eeee" : String).length = 4 := by
  refine ⟨?_, ?_, ?_, ?_, ?_, ?_⟩ <;> rfl

lemma str_len5 : ("defgh" : String).length = 5 := rfl

lemma str_len8 : ("efghijkl" : String).length = 8 := rfl

/-- A word token with the given character offset and literal (part of
speech "NOUN", dependency "obj", no break annotation). -/
def wordTok (idx : Nat) (text : String) : STok :=
  ⟨idx, text, false, "NOUN", "obj", false, ""⟩

/-- A token with explicit punctuation flag and break annotation. -/
def annTok (idx : Nat) (text : String) (isP can : Bool) (reason : String) : STok :=
  ⟨idx, text, isP, "NOUN", "obj", can, reason⟩

/-- "abc defgh i" with a conjunction-reason break candidate on the long
middle token: exercises the punctuation-only `continue`. -/
def exSpanA : List STok :=
  [wordTok 0 "abc", annTok 4 "defgh" false true "conjunction", wordTok 10 "i"]

/-- "abcd, efghijkl" where the comma carries reason "conjunction"
(as the conjunction rule produces when a conjunction follows a comma). -/
def exSpanB : List STok :=
  [wordTok 0 "abcd", annTok 4 "," true true "conjunction", wordTok 6 "efghijkl"]

/-- "aaaa bbbb, cccc dddd eeee" with a plain punctuation-reason comma. -/
def exSpanC : List STok :=
  [wordTok 0 "aaaa", wordTok 5 "bbbb", annTok 9 "," true true "punctuation",
   wordTok 11 "cccc", wordTok 16 "dddd", wordTok 21 "eeee"]

/-- Document "ab, cd" with the comma untimed. -/
def exDoc3 : List STok := [wordTok 0 "ab", annTok 2 "," true false "", wordTok 4 "cd"]

/-- Timing for `exDoc3`: the two words are timed, the comma is not. -/
def exTiming3 : List (Nat × ℚ × ℚ) := [(0, (1, 2)), (4, (3, 4))]

/-- Document ", ab": an untimed punctuation token, then a timed word. -/
def exDoc4 : List STok := [annTok 0 "," true false "", wordTok 2 "ab"]

/-- Timing for `exDoc4`: only the word at offset 2 is timed. -/
def exTiming4 : List (Nat × ℚ × ℚ) := [(2, (1, 2))]

/-- First sentence "aa" of the two-sentence repair-scenario document. -/
def exSent8a : List STok := [wordTok 0 "aa"]

/-- Second sentence "bb" of the two-sentence repair-scenario document. -/
def exSent8b : List STok := [wordTok 3 "bb"]

/-- Timing giving raw cue times (2.0, 2.5) and (2.4, 3.0). -/
def exTiming8 : List (Nat × ℚ × ℚ) := [(0, (2, 5/2)), (3, (12/5, 3))]

/-- Document "ab cd ef": three plain word tokens at offsets 0, 3, 6. -/
def exDoc5 : List STok := [wordTok 0 "ab", wordTok 3 "cd", wordTok 6 "ef"]

/-- Timing with entries at offsets 3 (0.0-0.5) and 6 (3.0-3.4): the gap
3.0 - 0.5 = 2.5 exceeds the 0.5s pause threshold. -/
def exTiming5 : List (Nat × ℚ × ℚ) := [(3, (0, 1/2)), (6, (3, 17/5))]

/-!  ## Claim C1  -/

/-- Claim C1: for every input span and every configuration
(`max_width`, `punctuation_only`), the chunks yielded by `divide_span`
are contiguous, non-overlapping token ranges in original order whose
concatenation is exactly the original span: the token indices covered by
the emitted ranges, in emission order, are exactly `0, 1, ...,
span.length - 1`, so no token is duplicated, dropped, or reordered. -/
theorem c1_divide_span_partition (span : List STok) (mw : Int) (po : Bool) :
    chunk_ranges (divide_span span mw po) = List.range span.length := by
  unfold divide_span
  by_cases h : (spanTextLen span : Int) ≤ mw
  · rw [if_pos h]
    simp [chunk_ranges, List.range_eq_range']
  · rw [if_neg h]
    have := (divide_go_main span mw po span 0 0 none 0 (by simp) le_rfl
      (by intro b hb; cases hb)).1
    rw [this, List.range_eq_range', Nat.sub_zero]

/-!  ## Claim C10  -/

/-- Claim C10 counterexample: on the empty span (whose text is empty,
hence not longer than `max_width`), `divide_span` yields the whole empty
span as one chunk, a chunk with zero tokens; so it is not the case that
every yielded chunk contains at least one token. -/
theorem c10_counterexample :
    divide_span ([] : List STok) 42 false = [(0, 0)] ∧
    ¬ (∀ p ∈ divide_span ([] : List STok) 42 false, p.1 < p.2) := by
  constructor
  · rfl
  · decide

/-- Claim C10 (amended): for every NON-EMPTY input span and every
configuration, every chunk yielded by `divide_span` contains at least
one token; in particular none of the three loop emit sites ever yields
an empty sub-span (only the whole-span fast path can, and only on the
empty span). -/
theorem c10_amended (span : List STok) (mw : Int) (po : Bool)
    (h : span ≠ []) : ∀ p ∈ divide_span span mw po, p.1 < p.2 := by
  unfold divide_span
  by_cases hs : (spanTextLen span : Int) ≤ mw
  · rw [if_pos hs]
    intro p hp
    simp only [List.mem_singleton] at hp
    subst hp
    exact List.length_pos.mpr h
  · rw [if_neg hs]
    exact (divide_go_main span mw po span 0 0 none 0 (by simp) le_rfl
      (by intro b hb; cases hb)).2

/-- Witness for C10 (amended) at a concrete non-empty span. -/
theorem c10_witness :
    exSpanA ≠ [] ∧ ∀ p ∈ divide_span exSpanA 4 true, p.1 < p.2 :=
  ⟨by decide, c10_amended exSpanA 4 true (by decide)⟩

/-!  ## Claim C6  -/

/-- Claim C6 counterexample: with `punctuation_only` set, the token of
`exSpanB` at index 1 has `can_break_after = true` and `break_reason =
"conjunction"` (not Punctuation), yet it IS recorded as a break
candidate (its literal "," passes the `is_punctuation` test of line 145,
which also accepts strong punctuation literals); so such a token is not
always skipped. -/
theorem c6_counterexample :
    1 ∈ divide_recorded exSpanB 10 true ∧
    (exSpanB.getD 1 default).canFragmentAfter = true ∧
    (exSpanB.getD 1 default).fragmentReason = "conjunction" ∧
    (exSpanB.getD 1 default).fragmentReason ≠ "punctuation" := by
  refine ⟨?_, by decide, by decide, by decide⟩
  norm_num +decide [divide_recorded, divide_go, scoring_upd, break_score, spanTextLen,
    spanSlice, is_punct_like, strong_punct, wordTok, annTok, exSpanB, Int.fdiv,
    str_len4, str_len8, str_len1.1]

/-- Claim C6 (amended): when `punctuation_only` is set, `divide_span`
skips entirely any token with `can_break_after = true` that is NOT
punctuation-like, where punctuation-like means: its literal is one of
`, . : ;` or its `break_reason` is Punctuation.  Hence every recorded
break candidate is a punctuation-like break-annotated token. -/
theorem c6_amended (span : List STok) (mw : Int) (b : Nat)
    (hb : b ∈ divide_recorded span mw true) :
    ∃ t, span[b]? = some t ∧ t.canFragmentAfter = true ∧ is_punct_like t := by
  unfold divide_recorded at hb
  by_cases hs : (spanTextLen span : Int) ≤ mw
  · rw [if_pos hs] at hb; cases hb
  · rw [if_neg hs] at hb
    obtain ⟨t, ht, hcf, hpo⟩ :=
      divide_go_recorded span mw true span 0 0 none 0 (by simp) b hb
    refine ⟨t, ht, hcf, ?_⟩
    by_contra hc
    exact hpo ⟨rfl, hc⟩

/-!  ## Claim C7  -/

/-- Claim C7 counterexample: the claim says the forced-break logic is
evaluated after EVERY scanned token; `divide_go_spec` implements exactly
that reading.  On `exSpanA` with `punctuation_only` set it differs from
the source `divide_span`, because the source's `continue` (line 148)
skips the forced-break logic for the skipped token as well. -/
theorem c7_counterexample :
    divide_span_spec exSpanA 4 true ≠ divide_span exSpanA 4 true := by
  norm_num +decide [divide_span_spec, divide_go_spec, divide_span, divide_go,
    scoring_upd, break_score, spanTextLen, spanSlice, is_punct_like, strong_punct,
    wordTok, annTok, exSpanA, Int.fdiv, str_len3, str_len5, str_len1.2]

/-- Claim C7 (amended): the forced-break logic (break at the best
candidate when `current_length > max_width`, else the 1.5x forced break)
is evaluated after every scanned token EXCEPT a token skipped entirely by
the punctuation-only filter; in particular, when `punctuation_only` is
unset, the loop that evaluates the forced-break logic after every token
(`divide_span_spec`, written from the spec's words) computes exactly the
source's `divide_span`. -/
theorem c7_amended (span : List STok) (mw : Int) :
    divide_span_spec span mw false = divide_span span mw false := by
  unfold divide_span_spec divide_span
  by_cases h : (spanTextLen span : Int) ≤ mw
  · rw [if_pos h, if_pos h]
  · rw [if_neg h, if_neg h]
    exact divide_go_spec_eq span mw span 0 0 none 0

/-!  ## Claims C2 and C8: document iteration and sequence repair  -/

/-- `ChainedTo le out l`: the cue list `out` is a well-formed repaired
sequence when entered with `last_end = le`: every cue starts no earlier
than the previous cue's end (the first no earlier than `le`), every cue
has positive duration, and `l` is the final `last_end` (the last cue's
end, or `le` when no cue was emitted). -/
def ChainedTo : ℚ → List Cue → ℚ → Prop
  | le, [], l => l = le
  | le, c :: cs, l => le ≤ c.1 ∧ c.1 < c.2.1 ∧ ChainedTo c.2.1 cs l

lemma chainedTo_append {xs ys : List Cue} :
    ∀ {le m l : ℚ}, ChainedTo le xs m → ChainedTo m ys l →
      ChainedTo le (xs ++ ys) l := by
  induction xs with
  | nil =>
    intro le m l h1 h2
    obtain rfl : m = le := h1
    simpa using h2
  | cons c cs ih =>
    intro le m l h1 h2
    obtain ⟨ha, hb, hc⟩ := h1
    exact ⟨ha, hb, ih hc h2⟩

lemma chainedTo_head_le {le l : ℚ} {out : List Cue} (h : ChainedTo le out l) :
    ∀ c ∈ out.head?, le ≤ c.1 := by
  cases out with
  | nil => simp
  | cons c cs =>
    intro d hd
    obtain rfl : c = d := by simpa using hd
    exact h.1

lemma chainedTo_props {out : List Cue} :
    ∀ {le l : ℚ}, ChainedTo le out l →
      (∀ c ∈ out, c.1 < c.2.1) ∧
      List.Chain' (fun c d : Cue => c.2.1 ≤ d.1) out := by
  induction out with
  | nil => intro le l _; simp
  | cons c cs ih =>
    intro le l h
    obtain ⟨-, hb, hc⟩ := h
    obtain ⟨ih1, ih2⟩ := ih hc
    refine ⟨?_, ?_⟩
    · intro d hd
      rcases List.mem_cons.mp hd with rfl | hd
      · exact hb
      · exact ih1 d hd
    · exact List.chain'_cons'.mpr ⟨chainedTo_head_le hc, ih2⟩

lemma emit_cues_chained (doc : List STok) (timing : List (Nat × ℚ × ℚ))
    (cs : List (Nat × Nat)) :
    ∀ (off : Nat) (le : ℚ),
      ChainedTo le (emit_cues doc timing cs off le).1
        (emit_cues doc timing cs off le).2 := by
  induction cs with
  | nil => intro off le; exact rfl
  | cons c cs ih =>
    intro off le
    obtain ⟨a, b⟩ := c
    simp only [emit_cues]
    split_ifs with h1 h2
    · exact ih off le
    · exact ih off le
    · rcases hg : get_time_span doc timing (off+a) (off+b) with - | ⟨s0, e0⟩
      · exact ih off le
      · dsimp only
        have h10 : (0 : ℚ) < 1/1000 := by norm_num
        refine ⟨?_, ?_, ih off _⟩ <;> dsimp only <;> split_ifs <;> linarith

lemma iterate_go_chained (doc : List STok) (timing : List (Nat × ℚ × ℚ))
    (mw : Int) (po : Bool) (ss : List (List STok)) :
    ∀ (off : Nat) (le : ℚ),
      ∃ l, ChainedTo le (iterate_document_go doc timing mw po ss off le) l := by
  induction ss with
  | nil => intro off le; exact ⟨le, rfl⟩
  | cons s ss ih =>
    intro off le
    obtain ⟨l, h2⟩ := ih (off + s.length) (emit_cues doc timing (divide_span s mw po) off le).2
    exact ⟨l, chainedTo_append (emit_cues_chained doc timing (divide_span s mw po) off le) h2⟩

/-- The `last_end` value after the spec-side repair pass has consumed a
list of resolved cues. -/
def repair_last (le : ℚ) : List Cue → ℚ
  | [] => le
  | (s, e, _) :: cs =>
    let s1 := if s < le then le + 1/1000 else s
    let e1 := if e ≤ s1 then s1 + 1/1000 else e
    repair_last e1 cs

lemma repair_pass_append (xs ys : List Cue) :
    ∀ le : ℚ, repair_pass le (xs ++ ys) =
      repair_pass le xs ++ repair_pass (repair_last le xs) ys := by
  induction xs with
  | nil => intro le; rfl
  | cons c xs ih =>
    intro le
    obtain ⟨s, e, r⟩ := c
    simp only [List.cons_append, repair_pass, repair_last, List.cons.injEq, true_and]
    exact ih _

lemma emit_cues_eq_repair (doc : List STok) (timing : List (Nat × ℚ × ℚ))
    (cs : List (Nat × Nat)) :
    ∀ (off : Nat) (le : ℚ),
      (emit_cues doc timing cs off le).1 =
        repair_pass le (raw_cues_emit doc timing cs off) ∧
      (emit_cues doc timing cs off le).2 =
        repair_last le (raw_cues_emit doc timing cs off) := by
  induction cs with
  | nil => intro off le; exact ⟨rfl, rfl⟩
  | cons c cs ih =>
    intro off le
    obtain ⟨a, b⟩ := c
    simp only [emit_cues, raw_cues_emit]
    split_ifs with h1 h2
    · exact ih off le
    · exact ih off le
    · rcases hg : get_time_span doc timing (off+a) (off+b) with - | ⟨s0, e0⟩
      · exact ih off le
      · dsimp only
        simp only [repair_pass, repair_last]
        exact ⟨by rw [(ih off _).1], by rw [(ih off _).2]⟩

lemma iterate_go_eq_repair (doc : List STok) (timing : List (Nat × ℚ × ℚ))
    (mw : Int) (po : Bool) (ss : List (List STok)) :
    ∀ (off : Nat) (le : ℚ),
      iterate_document_go doc timing mw po ss off le =
        repair_pass le (raw_cues doc timing mw po ss off) := by
  induction ss with
  | nil => intro off le; rfl
  | cons s ss ih =>
    intro off le
    simp only [iterate_document_go, raw_cues, repair_pass_append]
    rw [(emit_cues_eq_repair doc timing (divide_span s mw po) off le).1,
      (emit_cues_eq_repair doc timing (divide_span s mw po) off le).2,
      ih (off + s.length) _]

/-- Claim C2: after the repair pass of `iterate_document` has run over
the whole document's resolved cues, every pair of adjacent emitted cues
satisfies `cue[i+1].start >= cue[i].end`, and every emitted cue satisfies
`end > start` — document-globally, across sentence boundaries. -/
theorem c2_global_monotonicity (sents : List (List STok))
    (timing : List (Nat × ℚ × ℚ)) (mw : Int) (po : Bool) :
    (∀ c ∈ iterate_document sents timing mw po, c.1 < c.2.1) ∧
    List.Chain' (fun c d : Cue => c.2.1 ≤ d.1)
      (iterate_document sents timing mw po) := by
  unfold iterate_document
  obtain ⟨l, h⟩ := iterate_go_chained sents.flatten timing mw po sents 0 0
  exact chainedTo_props h

/-- Claim C8: the fused resolve-and-repair loop of `iterate_document`
equals the spec-side description — the standalone repair pass
`repair_pass`, with `last_end` initialized to 0, run over the whole
document's resolved cues in order — and, at the concrete two-sentence
document with raw resolved times (2.0, 2.5) and (2.4, 3.0), the second
emitted cue is (2.501, 3.0). -/
theorem c8_repair_pass_behaviour :
    (∀ (sents : List (List STok)) (timing : List (Nat × ℚ × ℚ)) (mw : Int) (po : Bool),
      iterate_document sents timing mw po =
        repair_pass 0 (raw_cues sents.flatten timing mw po sents 0)) ∧
    iterate_document [exSent8a, exSent8b] exTiming8 42 false =
      [(2, 5/2, 0, 1), (2501/1000, 3, 1, 2)] := by
  constructor
  · intro sents timing mw po
    unfold iterate_document
    exact iterate_go_eq_repair sents.flatten timing mw po sents 0 0
  · norm_num +decide [iterate_document, iterate_document_go, emit_cues, divide_span,
      divide_go, scoring_upd, break_score, spanTextLen, spanSlice, is_punct_like,
      strong_punct, get_time_span, walk_back, time_cond, timing_get,
      List.find?_cons_of_pos, List.find?_cons_of_neg,
      wordTok, exSent8a, exSent8b, exTiming8, Int.fdiv, str_len2]

/-!  ## Claims C9 and C5: fragmenter and pause detector  -/

lemma apply_match_length (doc : List STok) (m : String × Nat) :
    (apply_match doc m).length = doc.length := by
  unfold apply_match
  split_ifs <;> simp

lemma foldl_apply_match_length (ms : List (String × Nat)) :
    ∀ doc : List STok, (ms.foldl apply_match doc).length = doc.length := by
  induction ms with
  | nil => intro doc; rfl
  | cons m ms ih =>
    intro doc
    rw [List.foldl_cons, ih (apply_match doc m), apply_match_length]

lemma apply_pauses_getElem (l : List STok) :
    ∀ (ps : List Nat) (k j : Nat),
      (apply_pauses l ps k)[j]? =
        l[j]?.map (fun t => if (k + j) ∈ ps then mark t "verbal pause" else t) := by
  induction l with
  | nil => intro ps k j; simp [apply_pauses]
  | cons t ts ih =>
    intro ps k j
    cases j with
    | zero => simp [apply_pauses]
    | succ j =>
      have e1 : k + 1 + j = k + (j + 1) := by omega
      simp [apply_pauses, ih ps (k+1) j, e1]

/-- Claim C9: after the fragmenter's annotation pass completes, every
token whose document position is in `pause_positions` has
`can_break_after = true` and reason "verbal pause", regardless of what
the matcher rules previously set on that token (the verbal-pause loop
runs after the matcher pass and overwrites unconditionally). -/
theorem c9_pause_override (doc : List STok) (pauses : List Nat) (i : Nat)
    (hip : i ∈ pauses) (hi : i < doc.length) :
    ∃ t, (fragmenter doc pauses)[i]? = some t ∧
      t.canFragmentAfter = true ∧ t.fragmentReason = "verbal pause" := by
  unfold fragmenter
  have hlen : ((matches_go doc 0).foldl apply_match doc).length = doc.length :=
    foldl_apply_match_length (matches_go doc 0) doc
  have hi' : i < ((matches_go doc 0).foldl apply_match doc).length := by omega
  refine ⟨mark (((matches_go doc 0).foldl apply_match doc)[i]) "verbal pause", ?_, rfl, rfl⟩
  rw [apply_pauses_getElem, List.getElem?_eq_getElem hi']
  simp [Nat.zero_add, hip]

/-- Witness for C9: position 1 of `exDoc5` with `pause_positions = [1]`
is marked with reason "verbal pause". -/
theorem c9_witness :
    (1 ∈ [1] ∧ 1 < exDoc5.length) ∧
    ∃ t, (fragmenter exDoc5 [1])[1]? = some t ∧
      t.canFragmentAfter = true ∧ t.fragmentReason = "verbal pause" :=
  ⟨⟨by decide, by decide⟩, c9_pause_override exDoc5 [1] 1 (by decide) (by decide)⟩

/-- Claim C5 (code bug) at a concrete input: the timing table has timed
entries at character offsets 3 (`0.0-0.5`) and 6 (`3.0-3.4`); the gap is
`2.5 > 0.5`, so `scan_for_pauses` emits the earlier entry's CHARACTER
OFFSET 3.  The fragmenter, however, compares pause positions against
token DOCUMENT POSITIONS (`token.i`): no token of the three-token
document has position 3, so the annotation pass leaves the document
unchanged — in particular the token at character offset 3 (document
position 1) is NOT marked as a verbal-pause break candidate, contrary to
the claim. -/
theorem c5_offset_index_mismatch :
    scan_for_pauses exTiming5 = [3] ∧
    fragmenter exDoc5 (scan_for_pauses exTiming5) = exDoc5 ∧
    (exDoc5.getD 1 default).idx = 3 ∧
    (exDoc5.getD 1 default).canFragmentAfter = false := by
  have h : scan_for_pauses exTiming5 = [3] := by
    norm_num [scan_for_pauses, sort_by_key, insert_by_key, pause_scan, exTiming5]
  refine ⟨h, ?_, by decide, by decide⟩
  rw [h]
  decide

/-!  ## Claims C3 and C4: the timing resolver  -/

lemma walk_back_le (doc : List STok) (timing : List (Nat × ℚ × ℚ)) :
    ∀ j, walk_back doc timing j ≤ j := by
  intro j
  induction j with
  | zero => simp [walk_back]
  | succ j ih =>
    rw [walk_back]
    split_ifs
    · exact Nat.le_succ_of_le ih
    · exact le_rfl

/-- Characterization of the backward walk: it stops at position 0 or at
the first position (searching downward) where the walk condition fails,
and the condition holds at every position it stepped over. -/
lemma walk_back_spec (doc : List STok) (timing : List (Nat × ℚ × ℚ)) :
    ∀ j, (walk_back doc timing j = 0 ∨
          time_cond doc timing (walk_back doc timing j) = false) ∧
      ∀ k, walk_back doc timing j < k → k ≤ j → time_cond doc timing k = true := by
  intro j
  induction j with
  | zero =>
    refine ⟨Or.inl rfl, ?_⟩
    intro k hk hk0
    omega
  | succ j ih =>
    rw [walk_back]
    split_ifs with hc
    · refine ⟨ih.1, ?_⟩
      intro k hk hkj
      by_cases hkj' : k ≤ j
      · exact ih.2 k hk hkj'
      · have hk1 : k = j + 1 := by omega
        subst hk1
        exact hc
    · refine ⟨Or.inr (by simpa using hc), ?_⟩
      intro k hk hkj
      omega

/-- Claim C3: for every non-empty chunk `[a, b)` of the document,
`get_time_span` computes `start_token` by the backward walk from the
chunk's first token (position `a`) and `end_token` by the same backward
walk from the chunk's last token (position `b-1`) — each walk decrements
the position while the current token is punctuation or has no timing
entry, stopping at position 0 — and whenever it returns a time span,
that span is `(timing[start_token.offset].start,
timing[end_token.offset].end)`. -/
theorem c3_time_span_resolution (doc : List STok) (timing : List (Nat × ℚ × ℚ))
    (a b : Nat) (hab : a < b) :
    (walk_back doc timing a ≤ a ∧
      (walk_back doc timing a = 0 ∨
        time_cond doc timing (walk_back doc timing a) = false) ∧
      ∀ k, walk_back doc timing a < k → k ≤ a → time_cond doc timing k = true) ∧
    (walk_back doc timing (b-1) ≤ b-1 ∧
      (walk_back doc timing (b-1) = 0 ∨
        time_cond doc timing (walk_back doc timing (b-1)) = false) ∧
      ∀ k, walk_back doc timing (b-1) < k → k ≤ b-1 → time_cond doc timing k = true) ∧
    ∀ s e, get_time_span doc timing a b = some (s, e) →
      (∃ q, timing_get timing
          (doc.getD (walk_back doc timing a) default).idx = some (s, q)) ∧
      ∃ q, timing_get timing
          (doc.getD (walk_back doc timing (b-1)) default).idx = some (q, e) := by
  refine ⟨⟨walk_back_le doc timing a, walk_back_spec doc timing a⟩,
    ⟨walk_back_le doc timing (b-1), walk_back_spec doc timing (b-1)⟩, ?_⟩
  intro s e h
  unfold get_time_span at h
  rw [if_neg (by omega)] at h
  dsimp only at h
  rcases h1 : timing_get timing (doc.getD (walk_back doc timing a) default).idx
    with - | ⟨s0, e0⟩ <;>
    rcases h2 : timing_get timing (doc.getD (walk_back doc timing (b-1)) default).idx
      with - | ⟨s1, e1⟩ <;>
    rw [h1, h2] at h <;> simp at h
  obtain ⟨h3, h4⟩ := h
  subst h3
  subst h4
  exact ⟨⟨e0, rfl⟩, ⟨s1, rfl⟩⟩

/-- Witness for C3 on a concrete chunk: in `exDoc3` the chunk `[1, 3)`
starts at an untimed comma, the start walk falls back to position 0, the
end walk stays at position 2, and the returned span combines the first
entry's start with the last entry's end. -/
theorem c3_witness :
    (1 < 3) ∧
    ((walk_back exDoc3 exTiming3 1 ≤ 1 ∧
      (walk_back exDoc3 exTiming3 1 = 0 ∨
        time_cond exDoc3 exTiming3 (walk_back exDoc3 exTiming3 1) = false) ∧
      ∀ k, walk_back exDoc3 exTiming3 1 < k → k ≤ 1 →
        time_cond exDoc3 exTiming3 k = true) ∧
    (walk_back exDoc3 exTiming3 (3-1) ≤ 3-1 ∧
      (walk_back exDoc3 exTiming3 (3-1) = 0 ∨
        time_cond exDoc3 exTiming3 (walk_back exDoc3 exTiming3 (3-1)) = false) ∧
      ∀ k, walk_back exDoc3 exTiming3 (3-1) < k → k ≤ 3-1 →
        time_cond exDoc3 exTiming3 k = true) ∧
    ∀ s e, get_time_span exDoc3 exTiming3 1 3 = some (s, e) →
      (∃ q, timing_get exTiming3
          (exDoc3.getD (walk_back exDoc3 exTiming3 1) default).idx = some (s, q)) ∧
      ∃ q, timing_get exTiming3
          (exDoc3.getD (walk_back exDoc3 exTiming3 (3-1)) default).idx = some (q, e)) :=
  ⟨by decide, c3_time_span_resolution exDoc3 exTiming3 1 3 (by decide)⟩

/-- Claim C4 counterexample: in `exDoc4` (an untimed comma followed by a
timed word) the whole-document chunk `[0, 2)` has `end_token`'s offset
present in the timing table, yet `get_time_span` returns nothing — the
source drops the chunk when EITHER offset is missing, not only when
neither is present. -/
theorem c4_counterexample :
    get_time_span exDoc4 exTiming4 0 2 = none ∧
    (timing_get exTiming4
      (exDoc4.getD (walk_back exDoc4 exTiming4 (2-1)) default).idx).isSome = true := by
  constructor <;> decide

/-- Claim C4 (amended): for every chunk, `get_time_span` returns a time
span if and only if the chunk is non-empty and BOTH `start_token`'s and
`end_token`'s offsets are present in the timing table; equivalently, the
chunk is dropped as soon as either offset is missing. -/
theorem c4_amended (doc : List STok) (timing : List (Nat × ℚ × ℚ)) (a b : Nat) :
    (get_time_span doc timing a b).isSome = true ↔
      a < b ∧
      (timing_get timing (doc.getD (walk_back doc timing a) default).idx).isSome = true ∧
      (timing_get timing
        (doc.getD (walk_back doc timing (b-1)) default).idx).isSome = true := by
  unfold get_time_span
  by_cases hab : b ≤ a
  · rw [if_pos hab]
    simp [show ¬ a < b by omega]
  · rw [if_neg hab]
    rcases h1 : timing_get timing (doc.getD (walk_back doc timing a) default).idx
      with - | ⟨s0, e0⟩ <;>
      rcases h2 : timing_get timing (doc.getD (walk_back doc timing (b-1)) default).idx
        with - | ⟨s1, e1⟩ <;>
      simp_all

/-- Witness for C6 (amended): in `exSpanC` with `punctuation_only` set,
index 2 (the punctuation-reason comma) is recorded. -/
theorem c6_witness :
    2 ∈ divide_recorded exSpanC 12 true ∧
    ∃ t, exSpanC[2]? = some t ∧ t.canFragmentAfter = true ∧ is_punct_like t :=
  ⟨by norm_num +decide [divide_recorded, divide_go, scoring_upd, break_score, spanTextLen,
      spanSlice, is_punct_like, strong_punct, wordTok, annTok, exSpanC, Int.fdiv,
      str_len4, str_len1.1],
   c6_amended exSpanC 12 2
    (by norm_num +decide [divide_recorded, divide_go, scoring_upd, break_score, spanTextLen,
      spanSlice, is_punct_like, strong_punct, wordTok, annTok, exSpanC, Int.fdiv,
      str_len4, str_len1.1])⟩

end Subwisp
